import Mathlib

/-!
Shallow embedding of the rapid-qoi decoder (`src/decode.rs`) in Lean 4.

Byte slices are modelled as `List Nat` whose elements are below 256; `u8`
wrapping arithmetic is modelled with explicit `% 256`; `usize` arithmetic is
modelled with `Nat` (no claim concerns `usize` overflow).  The in-place
mutation of the caller's output buffer is modelled by threading the output
list through the loop, writing with `List.set`.  Rust's possible abortive
control flow (the slice index `&bytes[QOI_HEADER_SIZE..]`, and the
`unreachable_unchecked` arm of the opcode dispatch) is modelled by a
distinguished `panic` outcome.

Items of the crate root that are not part of `src/` (the `Rgba` pixel type,
the color hash, `Colors::has_alpha`, and the `QOI_*` constants) are modelled
from the spec; each carries a doc comment saying so.
-/

/-- Modelled from the spec: the spec (§6) places the opcode stream at
offset 14, after the fixed-size header; `QOI_HEADER_SIZE` is not defined in
`src/`. -/
def QOI_HEADER_SIZE : Nat := 14

/-- Modelled from the spec: the spec (§4.2, §6) requires a small fixed
padding threshold / fixed-length end-of-stream padding sentinel; the constant
itself is not defined in `src/`.  The standard QOI stream padding is 8
bytes. -/
def QOI_PADDING : Nat := 8

/-- Modelled from the spec: the spec (§6) fixes a 4-byte magic constant at
offset 0 without giving its value; the standard QOI magic (ASCII `qoif`) is
used.  No claim depends on the concrete value. -/
def QOI_MAGIC : Nat := 0x716f6966

/-- Modelled from the spec: a pixel is four 8-bit channels r, g, b, a
(spec §3, "Pixel"). -/
structure Rgba where
  r : Nat
  g : Nat
  b : Nat
  a : Nat
  deriving DecidableEq, Repr

/-- Modelled from the spec: `Rgba::new()` — the all-zero (transparent black)
pixel, the initial content of every color-cache slot (spec §3,
"Color Cache"). -/
def Rgba.new : Rgba := ⟨0, 0, 0, 0⟩

/-- Modelled from the spec: `Rgba::new_opaque()` — opaque black
(r=g=b=0, a=255), the initial running pixel (spec §4.2). -/
def Rgba.initial : Rgba := ⟨0, 0, 0, 255⟩

/-- The `u8` wrapping addition `x.wrapping_add y`. -/
def wadd8 (x y : Nat) : Nat := (x + y) % 256

/-- The `u8` wrapping subtraction `x.wrapping_sub y`. -/
def wsub8 (x y : Nat) : Nat := (x % 256 + (256 - y % 256)) % 256

/-- The four color modes of the header's (channels, color-space) pair
(`Colors` in the crate root; the variants appear in
`Qoi::decode_header`). -/
inductive Colors where
  | Srgb
  | SrgbLinA
  | Rgb
  | Rgba
  deriving DecidableEq, Repr

/-- Modelled from the spec: `Colors::has_alpha` is true exactly for the two
4-channel modes (spec §4.1 maps channels 4 to SrgbLinearAlpha and Rgba). -/
def Colors.has_alpha : Colors → Bool
  | .Srgb => false
  | .SrgbLinA => true
  | .Rgb => false
  | .Rgba => true

/-- The decode error enumeration (`DecodeError` in the crate root; all five
variants appear in `src/decode.rs`). -/
inductive DecodeError where
  | DataIsTooSmall
  | InvalidMagic
  | InvalidChannelsValue
  | InvalidColorSpaceValue
  | OutputIsTooSmall
  deriving DecidableEq, Repr

/-- The image descriptor (`Qoi` struct: width, height, colors). -/
structure Qoi where
  width : Nat
  height : Nat
  colors : Colors
  deriving DecidableEq, Repr

/-- `Qoi::decoded_size`: `width * height * (has_alpha as usize + 3)`. -/
def Qoi.decoded_size (q : Qoi) : Nat :=
  q.width * q.height * ((if q.colors.has_alpha then 1 else 0) + 3)

/-- `HAS_ALPHA as usize + 3`, the channel count used throughout
`decode_impl`. -/
def channelsOf (hasAlpha : Bool) : Nat := (if hasAlpha then 1 else 0) + 3

/-- Modelled from the spec: the color hash, a fixed deterministic
channel-weighted multiply-xor folding of (r,g,b,a) into a 6-bit index
(spec §4.2); `qui_color_hash` is not defined in `src/`, and the spec leaves
the exact mixing formula open.  No claim depends on the formula, only on the
index being a deterministic function of the four channels with values below
64. -/
def qui_color_hash (px : Rgba) : Nat :=
  ((px.r * 3) % 256 ^^^ (px.g * 5) % 256 ^^^ (px.b * 7) % 256 ^^^
    (px.a * 11) % 256) % 64

/-- Write the bytes `vals` into `out` at consecutive positions starting at
`pos` (the model of writing into a mutable subslice of the output). -/
def setBytes (out : List Nat) (pos : Nat) (vals : List Nat) : List Nat :=
  match vals with
  | [] => out
  | v :: vs => setBytes (out.set pos v) (pos + 1) vs

/-- Modelled from the spec: `Rgba::write_rgb` writes the three bytes r,g,b at
the pixel cursor (spec §4.2: 3 bytes in 3-channel mode, alpha never
emitted). -/
def Rgba.write_rgb (px : Rgba) (pos : Nat) (out : List Nat) : List Nat :=
  setBytes out pos [px.r, px.g, px.b]

/-- Modelled from the spec: `Rgba::write_rgba` writes the four bytes r,g,b,a
at the pixel cursor (spec §4.2). -/
def Rgba.write_rgba (px : Rgba) (pos : Nat) (out : List Nat) : List Nat :=
  setBytes out pos [px.r, px.g, px.b, px.a]

/-- The `match HAS_ALPHA { true => px.write_rgba(..), false => px.write_rgb(..) }`
blocks of `decode_impl`. -/
def writePx (hasAlpha : Bool) (px : Rgba) (pos : Nat) (out : List Nat) :
    List Nat :=
  match hasAlpha with
  | true => px.write_rgba pos out
  | false => px.write_rgb pos out

/-- The classification performed by the ordered match on `rest` in
`decode_impl` (lines 103-158), as a function of the leading byte.  Under the
guard `rest.len() > QOI_PADDING` every pattern has enough following bytes, so
Rust's ordered slice patterns reduce exactly to this ordered test chain on
the first byte.  `opUnreach` is the fall-through arm marked
`unreachable_unchecked`; it is only reachable for values that are not bytes. -/
inductive Op where
  | opRgb
  | opRgba
  | opIndex
  | opDiff
  | opLuma
  | opRun
  | opUnreach
  deriving DecidableEq, Repr

def classify (b1 : Nat) : Op :=
  if b1 = 0b11111110 then .opRgb
  else if b1 = 0b11111111 then .opRgba
  else if b1 ≤ 0b00111111 then .opIndex
  else if b1 ≤ 0b01111111 then .opDiff
  else if b1 ≤ 0b10111111 then .opLuma
  else if b1 ≤ 0b11111111 then .opRun
  else .opUnreach

/-- The small-delta branch (lines 121-126): each channel delta is two bits,
minus 2, applied with `u8` wrapping arithmetic; alpha unchanged. -/
def diffPixel (px : Rgba) (b1 : Nat) : Rgba :=
  { px with
    r := wadd8 px.r (wsub8 ((b1 >>> 4) &&& 0x03) 2)
    g := wadd8 px.g (wsub8 ((b1 >>> 2) &&& 0x03) 2)
    b := wadd8 px.b (wsub8 (b1 &&& 0x03) 2) }

/-- The luma-delta branch (lines 127-136): `vg = (b1 & 0x3f) - 32`,
`vr = ((b2 >> 4) & 0xf) - 8 + vg`, `vb = (b2 & 0xf) - 8 + vg`, all with `u8`
wrapping arithmetic; alpha unchanged. -/
def lumaPixel (px : Rgba) (b1 b2 : Nat) : Rgba :=
  let vg := wsub8 (b1 &&& 0x3f) 32
  let vr := wadd8 (wsub8 ((b2 >>> 4) &&& 0x0f) 8) vg
  let vb := wadd8 (wsub8 (b2 &&& 0x0f) 8) vg
  { px with
    r := wadd8 px.r vr
    g := wadd8 px.g vg
    b := wadd8 px.b vb }

/-- Outcome of `decode_impl` / `decode_skip_header`: the `Ok(())` /
`Err(e)` result (carrying the final state of the caller's output buffer), or
abortive control flow (`panic`: the out-of-bounds slice index on line 99, or
the `unreachable_unchecked` arm). -/
inductive DecodeOutcome where
  | ok (output : List Nat)
  | err (e : DecodeError)
  | panic
  deriving DecidableEq, Repr

/-- The inner `while run > 0` loop of the run branch (lines 141-155):
repeat the current pixel, checking `px_pos >= px_len` before every write and
advancing the pixel cursor by the channel count after every write. -/
def runWrite (hasAlpha : Bool) (px : Rgba) (pxLen : Nat) :
    Nat → Nat → List Nat → Except DecodeError (Nat × List Nat)
  | 0, pxPos, out => .ok (pxPos, out)
  | n + 1, pxPos, out =>
    if pxPos ≥ pxLen then .error .OutputIsTooSmall
    else
      runWrite hasAlpha px pxLen n (pxPos + channelsOf hasAlpha)
        (writePx hasAlpha px pxPos out)

/-- The `while px_pos < px_len` loop of `decode_impl` (lines 101-171).
Every iteration first checks the padding guard `rest.len() > QOI_PADDING`
(line 102); since `QOI_PADDING = 8`, the matched list always has at least
five elements, so the `⟶ DecodeOutcome.panic` catch-all for shorter lists is
unreachable.  Each non-run branch computes the new pixel, stores it in the
cache slot given by its hash, writes it at the pixel cursor and advances the
cursor by the channel count (lines 164-170); the run branch repeats the
current pixel without touching the cache (lines 137-157). -/
def decodeLoop (hasAlpha : Bool) (pxLen : Nat) (rest : List Nat) (px : Rgba)
    (index : List Rgba) (pxPos : Nat) (output : List Nat) : DecodeOutcome :=
  if pxPos < pxLen then
    if QOI_PADDING < rest.length then
      match rest with
      | b1 :: b2 :: b3 :: b4 :: b5 :: tail =>
        match classify b1 with
        | .opRgb =>
          let px2 : Rgba := { px with r := b2, g := b3, b := b4 }
          decodeLoop hasAlpha pxLen (b5 :: tail) px2
            (index.set (qui_color_hash px2) px2)
            (pxPos + channelsOf hasAlpha) (writePx hasAlpha px2 pxPos output)
        | .opRgba =>
          let px2 : Rgba := ⟨b2, b3, b4, b5⟩
          decodeLoop hasAlpha pxLen tail px2
            (index.set (qui_color_hash px2) px2)
            (pxPos + channelsOf hasAlpha) (writePx hasAlpha px2 pxPos output)
        | .opIndex =>
          let px2 := index.getD b1 Rgba.new
          decodeLoop hasAlpha pxLen (b2 :: b3 :: b4 :: b5 :: tail) px2
            (index.set (qui_color_hash px2) px2)
            (pxPos + channelsOf hasAlpha) (writePx hasAlpha px2 pxPos output)
        | .opDiff =>
          let px2 := diffPixel px b1
          decodeLoop hasAlpha pxLen (b2 :: b3 :: b4 :: b5 :: tail) px2
            (index.set (qui_color_hash px2) px2)
            (pxPos + channelsOf hasAlpha) (writePx hasAlpha px2 pxPos output)
        | .opLuma =>
          let px2 := lumaPixel px b1 b2
          decodeLoop hasAlpha pxLen (b3 :: b4 :: b5 :: tail) px2
            (index.set (qui_color_hash px2) px2)
            (pxPos + channelsOf hasAlpha) (writePx hasAlpha px2 pxPos output)
        | .opRun =>
          match runWrite hasAlpha px pxLen ((b1 &&& 0x3f) + 1) pxPos output with
          | .ok (pxPos2, output2) =>
            decodeLoop hasAlpha pxLen (b2 :: b3 :: b4 :: b5 :: tail) px index
              pxPos2 output2
          | .error e => .err e
        | .opUnreach => .panic
      | _ => .panic
    else .err .DataIsTooSmall
  else .ok output
termination_by rest.length
decreasing_by all_goals (simp [List.length_cons]; try omega)

/-- `Qoi::decode_impl` (lines 73-174): size computation, the zero-dimension
shortcut, the output-size check, state initialization, the header-skipping
slice `&bytes[QOI_HEADER_SIZE..]` (which panics when the input is shorter
than the header), and the decode loop. -/
def Qoi.decode_impl (q : Qoi) (hasAlpha : Bool) (bytes output : List Nat) :
    DecodeOutcome :=
  let px_len := q.decoded_size
  if q.width = 0 ∨ q.height = 0 then .ok output
  else if output.length < px_len then .err .OutputIsTooSmall
  else if bytes.length < QOI_HEADER_SIZE then .panic
  else
    decodeLoop hasAlpha px_len (bytes.drop QOI_HEADER_SIZE) Rgba.initial
      (List.replicate 64 Rgba.new) 0 output

/-- `Qoi::decode_skip_header` (lines 66-71): dispatch on `colors.has_alpha()`
to the two monomorphizations of `decode_impl`. -/
def Qoi.decode_skip_header (q : Qoi) (bytes output : List Nat) :
    DecodeOutcome :=
  match q.colors.has_alpha with
  | true => q.decode_impl true bytes output
  | false => q.decode_impl false bytes output

/-- `u32::from_be_bytes` of the four bytes at offset `off`. -/
def be32 (bytes : List Nat) (off : Nat) : Nat :=
  bytes.getD off 0 * 0x1000000 + bytes.getD (off + 1) 0 * 0x10000 +
    bytes.getD (off + 2) 0 * 0x100 + bytes.getD (off + 3) 0

/-- `Qoi::decode_header` (lines 17-45).  The ordered Rust match on
`(channels, colors)` is rendered as the equivalent ordered test chain. -/
def Qoi.decode_header (bytes : List Nat) : Except DecodeError Qoi :=
  if bytes.length < QOI_HEADER_SIZE then .error .DataIsTooSmall
  else if be32 bytes 0 ≠ QOI_MAGIC then .error .InvalidMagic
  else
    let w := be32 bytes 4
    let h := be32 bytes 8
    let channels := bytes.getD 12 0
    let colors := bytes.getD 13 0
    if channels = 3 ∧ colors = 0 then .ok ⟨w, h, .Srgb⟩
    else if channels = 4 ∧ colors = 0 then .ok ⟨w, h, .SrgbLinA⟩
    else if channels = 3 ∧ colors = 1 then .ok ⟨w, h, .Rgb⟩
    else if channels = 4 ∧ colors = 1 then .ok ⟨w, h, .Rgba⟩
    else if colors = 0 ∨ colors = 1 then .error .InvalidChannelsValue
    else .error .InvalidColorSpaceValue

/-- Result of `Qoi::decode`: the descriptor and the final output buffer, an
error, or abortive control flow propagated from `decode_skip_header`. -/
inductive DecodeResult where
  | ok (qoi : Qoi) (output : List Nat)
  | err (e : DecodeError)
  | panic
  deriving DecidableEq, Repr

/-- `Qoi::decode` (lines 53-57): parse the header, then decode the body. -/
def Qoi.decode (bytes output : List Nat) : DecodeResult :=
  match Qoi.decode_header bytes with
  | .error e => .err e
  | .ok qoi =>
    match qoi.decode_skip_header bytes output with
    | .ok out => .ok qoi out
    | .err e => .err e
    | .panic => .panic

/-! ### Instrumented decoder

`decodeLoopT` is `decodeLoop` with instrumentation and no other change:
every model of an unchecked write
(`output.get_unchecked_mut(px_pos..px_pos + channels)`, lines 147-152 and
166-168) is guarded by that operation's safety condition
`px_pos + channels <= output.len()`, with a distinguished `oob` outcome when
it fails; the error outcomes keep the final (possibly partially written)
state of the output buffer; and a counter tracks the number of bytes
written.  Erasing the instrumentation recovers `decodeLoop` exactly, so
theorems about `decodeLoopT` are theorems about the decoder: in particular
it never returns `oob`, which is the in-bounds-ness of every unchecked
write on every path, including the paths that end in an error. -/

theorem channelsOf_pos (hasAlpha : Bool) : 0 < channelsOf hasAlpha := by
  cases hasAlpha <;> simp [channelsOf]

/-- Claim C3: the small-delta token updates each color channel by its
two-bit field minus 2 with wrapping (mod 256) arithmetic and leaves alpha
unchanged; starting from r = 0, a delta of -2 yields 254 (no error, no
clamping); the luma-delta token applies vg = (low 6 bits) - 32,
vr = ((second >> 4) & 0xF) - 8 + vg, vb = (second & 0xF) - 8 + vg with
wrapping additions and leaves alpha unchanged (-2, -8 and -32 are written as
their mod-256 representatives 254, 248 and 224). -/
theorem claim_c3 :
    (∀ (px : Rgba) (b1 : Nat),
      (diffPixel px b1).r = (px.r + ((b1 >>> 4) &&& 3) + 254) % 256 ∧
      (diffPixel px b1).g = (px.g + ((b1 >>> 2) &&& 3) + 254) % 256 ∧
      (diffPixel px b1).b = (px.b + (b1 &&& 3) + 254) % 256 ∧
      (diffPixel px b1).a = px.a) ∧
    (diffPixel ⟨0, 7, 9, 255⟩ 0x4A).r = 254 ∧
    (∀ (px : Rgba) (b1 b2 : Nat),
      (lumaPixel px b1 b2).g = (px.g + ((b1 &&& 63) + 224)) % 256 ∧
      (lumaPixel px b1 b2).r =
        (px.r + (((b2 >>> 4) &&& 15) + 248 + ((b1 &&& 63) + 224))) % 256 ∧
      (lumaPixel px b1 b2).b =
        (px.b + ((b2 &&& 15) + 248 + ((b1 &&& 63) + 224))) % 256 ∧
      (lumaPixel px b1 b2).a = px.a) := by
  refine ⟨?_, by decide, ?_⟩
  · intro px b1
    have h1 : (b1 >>> 4) &&& 3 ≤ 3 := Nat.and_le_right
    have h2 : (b1 >>> 2) &&& 3 ≤ 3 := Nat.and_le_right
    have h3 : b1 &&& 3 ≤ 3 := Nat.and_le_right
    refine ⟨?_, ?_, ?_, rfl⟩ <;> (simp only [diffPixel, wadd8, wsub8]; omega)
  · intro px b1 b2
    have h1 : b1 &&& 63 ≤ 63 := Nat.and_le_right
    have h2 : (b2 >>> 4) &&& 15 ≤ 15 := Nat.and_le_right
    have h3 : b2 &&& 15 ≤ 15 := Nat.and_le_right
    refine ⟨?_, ?_, ?_, rfl⟩ <;> (simp only [lumaPixel, wadd8, wsub8]; omega)

/-- Claim C6: `decode_header` fails with `DataIsTooSmall` on inputs shorter
than the header size; otherwise with `InvalidMagic` when the big-endian
32-bit value at offset 0 differs from the magic constant; otherwise maps the
(channels, color-space) byte pair at offsets 12 and 13 as (3,0) to Srgb,
(4,0) to SrgbLinA, (3,1) to Rgb, (4,1) to Rgba, fails with
`InvalidChannelsValue` for any other channels value when the color-space
byte is 0 or 1, and with `InvalidColorSpaceValue` for any other color-space
value; width and height are read big-endian at offsets 4 and 8. -/
theorem claim_c6 :
    ∀ bytes : List Nat,
      (bytes.length < QOI_HEADER_SIZE →
        Qoi.decode_header bytes = .error .DataIsTooSmall) ∧
      (QOI_HEADER_SIZE ≤ bytes.length → be32 bytes 0 ≠ QOI_MAGIC →
        Qoi.decode_header bytes = .error .InvalidMagic) ∧
      (QOI_HEADER_SIZE ≤ bytes.length → be32 bytes 0 = QOI_MAGIC →
        ((bytes.getD 12 0 = 3 → bytes.getD 13 0 = 0 →
           Qoi.decode_header bytes = .ok ⟨be32 bytes 4, be32 bytes 8, .Srgb⟩) ∧
         (bytes.getD 12 0 = 4 → bytes.getD 13 0 = 0 →
           Qoi.decode_header bytes =
             .ok ⟨be32 bytes 4, be32 bytes 8, .SrgbLinA⟩) ∧
         (bytes.getD 12 0 = 3 → bytes.getD 13 0 = 1 →
           Qoi.decode_header bytes = .ok ⟨be32 bytes 4, be32 bytes 8, .Rgb⟩) ∧
         (bytes.getD 12 0 = 4 → bytes.getD 13 0 = 1 →
           Qoi.decode_header bytes = .ok ⟨be32 bytes 4, be32 bytes 8, .Rgba⟩) ∧
         (bytes.getD 12 0 ≠ 3 → bytes.getD 12 0 ≠ 4 →
           (bytes.getD 13 0 = 0 ∨ bytes.getD 13 0 = 1) →
           Qoi.decode_header bytes = .error .InvalidChannelsValue) ∧
         (bytes.getD 13 0 ≠ 0 → bytes.getD 13 0 ≠ 1 →
           Qoi.decode_header bytes = .error .InvalidColorSpaceValue))) := by
  intro bytes
  refine ⟨fun h => by simp [Qoi.decode_header, h], fun h1 h2 => ?_, fun h1 h2 => ?_⟩
  · simp [Qoi.decode_header, Nat.not_lt.2 h1, h2]
  · refine ⟨fun hc hs => ?_, fun hc hs => ?_, fun hc hs => ?_, fun hc hs => ?_,
      fun hc hc4 hs => ?_, fun hs0 hs1 => ?_⟩ <;>
      simp_all [Qoi.decode_header, Nat.not_lt.2 h1]

/-- Claim C6 witness: a well-formed 14-byte header with width 2, height 3,
channels 4, color-space 1 parses as an Rgba descriptor. -/
theorem claim_c6_witness :
    Qoi.decode_header [0x71, 0x6f, 0x69, 0x66, 0, 0, 0, 2, 0, 0, 0, 3, 4, 1] =
      .ok ⟨be32 [0x71, 0x6f, 0x69, 0x66, 0, 0, 0, 2, 0, 0, 0, 3, 4, 1] 4,
           be32 [0x71, 0x6f, 0x69, 0x66, 0, 0, 0, 2, 0, 0, 0, 3, 4, 1] 8,
           .Rgba⟩ :=
  ((claim_c6 [0x71, 0x6f, 0x69, 0x66, 0, 0, 0, 2, 0, 0, 0, 3, 4, 1]).2.2
    (by decide) (by decide)).2.2.2.1 (by decide) (by decide)

set_option maxRecDepth 4096 in
/-- Claim C8: the six opcode shapes of the dispatch are exhaustive over all
256 byte values: the classification of the leading byte never reaches the
fall-through arm marked unreachable, and every byte falls in at least one of
the six source patterns. -/
theorem claim_c8 :
    ∀ b1 : Nat, b1 < 256 →
      classify b1 ≠ Op.opUnreach ∧
      (b1 = 254 ∨ b1 = 255 ∨ b1 ≤ 63 ∨ (64 ≤ b1 ∧ b1 ≤ 127) ∨
        (128 ≤ b1 ∧ b1 ≤ 191) ∨ (192 ≤ b1 ∧ b1 ≤ 255)) := by decide

/-- Claim C8 witness: instantiation at the byte 100. -/
theorem claim_c8_witness :
    classify 100 ≠ Op.opUnreach ∧
    ((100 : Nat) = 254 ∨ (100 : Nat) = 255 ∨ (100 : Nat) ≤ 63 ∨
      (64 ≤ (100 : Nat) ∧ (100 : Nat) ≤ 127) ∨
      (128 ≤ (100 : Nat) ∧ (100 : Nat) ≤ 191) ∨
      (192 ≤ (100 : Nat) ∧ (100 : Nat) ≤ 255)) :=
  claim_c8 100 (by decide)

/-- Claim C10: `decode_skip_header` interprets the opcode stream as starting
at the fixed header offset (byte 14) of the input slice, and the 14 header
bytes never influence the result: replacing them by any other 14 bytes gives
the same outcome. -/
theorem claim_c10 :
    QOI_HEADER_SIZE = 14 ∧
    ∀ (q : Qoi) (h1 h2 rest output : List Nat),
      h1.length = QOI_HEADER_SIZE → h2.length = QOI_HEADER_SIZE →
      q.decode_skip_header (h1 ++ rest) output =
        q.decode_skip_header (h2 ++ rest) output := by
  refine ⟨rfl, ?_⟩
  intro q h1 h2 rest output e1 e2
  have d1 : (h1 ++ rest).drop QOI_HEADER_SIZE = rest := by
    rw [← e1]; exact List.drop_left h1 rest
  have d2 : (h2 ++ rest).drop QOI_HEADER_SIZE = rest := by
    rw [← e2]; exact List.drop_left h2 rest
  cases hA : q.colors.has_alpha <;>
    simp [Qoi.decode_skip_header, hA, Qoi.decode_impl, List.length_append,
      e1, e2, d1, d2]

/-- Claim C10 witness: two different 14-byte prefixes give the same
outcome. -/
theorem claim_c10_witness :
    Qoi.decode_skip_header ⟨1, 1, Colors.Rgb⟩ (List.replicate 14 0 ++ []) [] =
      Qoi.decode_skip_header ⟨1, 1, Colors.Rgb⟩ (List.replicate 14 1 ++ []) [] :=
  claim_c10.2 ⟨1, 1, Colors.Rgb⟩ (List.replicate 14 0) (List.replicate 14 1)
    [] [] (by decide) (by decide)

/-- Claim C1: for every non-run token at the head of the remaining input
(with the padding guard and the loop condition satisfied), the iteration
computes the resulting pixel, stores it into the 64-entry color cache at the
index given by hashing its four channels, writes it to the output at the
current pixel cursor (3 or 4 bytes by alpha mode) and advances the cursor by
the channel count, consuming between 1 and 5 input bytes; consequently a
cache-lookup token referencing a slot never written earlier yields the
all-zero pixel and a successful decode (second conjunct: a 1 by 1 RGBA image
whose only token looks up the untouched slot 5 decodes to the transparent
black pixel 0,0,0,0). -/
theorem claim_c1 :
    (∀ (hasAlpha : Bool) (pxLen b1 b2 b3 b4 b5 : Nat) (tail : List Nat)
        (px : Rgba) (index : List Rgba) (pxPos : Nat) (output : List Nat),
      pxPos < pxLen →
      QOI_PADDING < (b1 :: b2 :: b3 :: b4 :: b5 :: tail).length →
      b1 < 256 → classify b1 ≠ Op.opRun →
      ∃ (px2 : Rgba) (n : Nat), 1 ≤ n ∧ n ≤ 5 ∧
        decodeLoop hasAlpha pxLen (b1 :: b2 :: b3 :: b4 :: b5 :: tail) px index
            pxPos output =
          decodeLoop hasAlpha pxLen
            ((b1 :: b2 :: b3 :: b4 :: b5 :: tail).drop n) px2
            (index.set (qui_color_hash px2) px2)
            (pxPos + channelsOf hasAlpha)
            (writePx hasAlpha px2 pxPos output)) ∧
    Qoi.decode_skip_header ⟨1, 1, Colors.Rgba⟩
        (List.replicate QOI_HEADER_SIZE 0 ++ [5] ++ List.replicate 8 0)
        [9, 9, 9, 9] =
      DecodeOutcome.ok [0, 0, 0, 0] := by
  constructor
  · intro hasAlpha pxLen b1 b2 b3 b4 b5 tail px index pxPos output h1 h2 hb hrun
    simp only [List.length_cons] at h2
    by_cases e1 : b1 = 254
    · subst e1
      refine ⟨{ px with r := b2, g := b3, b := b4 }, 4, by omega, by omega, ?_⟩
      conv_lhs => rw [decodeLoop.eq_def]
      simp [h1, h2, classify]
    · by_cases e2 : b1 = 255
      · subst e2
        refine ⟨⟨b2, b3, b4, b5⟩, 5, by omega, by omega, ?_⟩
        conv_lhs => rw [decodeLoop.eq_def]
        simp [h1, h2, classify]
      · by_cases e3 : b1 ≤ 63
        · refine ⟨index.getD b1 Rgba.new, 1, by omega, by omega, ?_⟩
          have hc : classify b1 = Op.opIndex := by simp [classify, e1, e2, e3]
          conv_lhs => rw [decodeLoop.eq_def]
          simp [h1, h2, hc]
        · by_cases e4 : b1 ≤ 127
          · refine ⟨diffPixel px b1, 1, by omega, by omega, ?_⟩
            have hc : classify b1 = Op.opDiff := by
              simp [classify, e1, e2, e3, e4]
            conv_lhs => rw [decodeLoop.eq_def]
            simp [h1, h2, hc]
          · by_cases e5 : b1 ≤ 191
            · refine ⟨lumaPixel px b1 b2, 2, by omega, by omega, ?_⟩
              have hc : classify b1 = Op.opLuma := by
                simp [classify, e1, e2, e3, e4, e5]
              conv_lhs => rw [decodeLoop.eq_def]
              simp [h1, h2, hc]
            · exact absurd (by simp [classify, e1, e2, e3, e4, e5]; omega) hrun
  · simp [Qoi.decode_skip_header, Qoi.decode_impl, Colors.has_alpha,
      Qoi.decoded_size, QOI_HEADER_SIZE, QOI_PADDING, decodeLoop, classify,
      channelsOf, writePx, Rgba.write_rgba, Rgba.write_rgb, setBytes,
      qui_color_hash, Rgba.new, Rgba.initial, List.replicate, runWrite]

/-- Claim C1 witness: the general step applied to a cache-lookup token (byte
0) on a 3-byte RGB output. -/
theorem claim_c1_witness :
    ∃ (px2 : Rgba) (n : Nat), 1 ≤ n ∧ n ≤ 5 ∧
      decodeLoop false 3 (0 :: 0 :: 0 :: 0 :: 0 :: [0, 0, 0, 0]) Rgba.initial
          (List.replicate 64 Rgba.new) 0 [7, 7, 7] =
        decodeLoop false 3 ((0 :: 0 :: 0 :: 0 :: 0 :: [0, 0, 0, 0]).drop n) px2
          ((List.replicate 64 Rgba.new).set (qui_color_hash px2) px2)
          (0 + channelsOf false) (writePx false px2 0 [7, 7, 7]) :=
  claim_c1.1 false 3 0 0 0 0 0 [0, 0, 0, 0] Rgba.initial
    (List.replicate 64 Rgba.new) 0 [7, 7, 7] (by decide) (by decide) (by decide)
    (by decide)

/-- Claim C4: at every loop iteration with pixels still to produce, if at
most `QOI_PADDING` bytes of input remain the decoder fails with
`DataIsTooSmall` before reading any token byte — hence it never reads past
the end of the input buffer; concretely, a minimal valid one-pixel RGB
stream decodes successfully, and the same stream with its final byte removed
fails with `DataIsTooSmall`. -/
theorem claim_c4 :
    (∀ (hasAlpha : Bool) (pxLen : Nat) (rest : List Nat) (px : Rgba)
        (index : List Rgba) (pxPos : Nat) (output : List Nat),
      pxPos < pxLen → rest.length ≤ QOI_PADDING →
      decodeLoop hasAlpha pxLen rest px index pxPos output =
        .err .DataIsTooSmall) ∧
    Qoi.decode ([0x71, 0x6f, 0x69, 0x66, 0, 0, 0, 1, 0, 0, 0, 1, 3, 1] ++
        [0xC0] ++ List.replicate 8 0) [7, 7, 7] =
      DecodeResult.ok ⟨1, 1, Colors.Rgb⟩ [0, 0, 0] ∧
    Qoi.decode (([0x71, 0x6f, 0x69, 0x66, 0, 0, 0, 1, 0, 0, 0, 1, 3, 1] ++
        [0xC0] ++ List.replicate 8 0).dropLast) [7, 7, 7] =
      DecodeResult.err .DataIsTooSmall := by
  refine ⟨?_, ?_, ?_⟩
  · intro hasAlpha pxLen rest px index pxPos output h1 h2
    rw [decodeLoop.eq_def]
    simp [h1, Nat.not_lt.2 h2]
  · simp [Qoi.decode, Qoi.decode_header, be32, QOI_MAGIC, QOI_HEADER_SIZE,
      QOI_PADDING, Qoi.decode_skip_header, Qoi.decode_impl, Colors.has_alpha,
      Qoi.decoded_size, decodeLoop, classify, channelsOf, writePx,
      Rgba.write_rgba, Rgba.write_rgb, setBytes, qui_color_hash, Rgba.new,
      Rgba.initial, List.replicate, runWrite]
  · simp [List.dropLast, Qoi.decode, Qoi.decode_header, be32, QOI_MAGIC,
      QOI_HEADER_SIZE, QOI_PADDING, Qoi.decode_skip_header, Qoi.decode_impl,
      Colors.has_alpha, Qoi.decoded_size, decodeLoop, classify, channelsOf,
      writePx, Rgba.write_rgba, Rgba.write_rgb, setBytes, qui_color_hash,
      Rgba.new, Rgba.initial, List.replicate, runWrite]

/-- Claim C4 witness: with empty remaining input and a pixel still to
produce, the loop fails with `DataIsTooSmall`. -/
theorem claim_c4_witness :
    decodeLoop false 3 [] Rgba.initial (List.replicate 64 Rgba.new) 0
      [7, 7, 7] = .err .DataIsTooSmall :=
  claim_c4.1 false 3 [] Rgba.initial (List.replicate 64 Rgba.new) 0 [7, 7, 7]
    (by decide) (by decide)

theorem step_le_of_mod (ch pxPos pxLen : Nat) (_hch : 0 < ch)
    (hp : pxPos % ch = 0) (hl : pxLen % ch = 0) (h : pxPos < pxLen) :
    pxPos + ch ≤ pxLen := by
  have d3 : ch ∣ (pxLen - pxPos) :=
    Nat.dvd_sub' (Nat.dvd_of_mod_eq_zero hl) (Nat.dvd_of_mod_eq_zero hp)
  have h4 : ch ≤ pxLen - pxPos := Nat.le_of_dvd (by omega) d3
  omega

theorem runWrite_ok (hasAlpha : Bool) (px : Rgba) (pxLen : Nat) :
    ∀ (n pxPos : Nat) (out : List Nat),
      pxPos + n * channelsOf hasAlpha ≤ pxLen →
      ∃ out2, runWrite hasAlpha px pxLen n pxPos out =
        .ok (pxPos + n * channelsOf hasAlpha, out2) := by
  intro n
  induction n with
  | zero => intro pxPos out h; exact ⟨out, by simp [runWrite]⟩
  | succ m ih =>
    intro pxPos out h
    have hch : 0 < channelsOf hasAlpha := channelsOf_pos hasAlpha
    have hmul : (m + 1) * channelsOf hasAlpha =
        m * channelsOf hasAlpha + channelsOf hasAlpha := Nat.succ_mul m _
    rw [hmul] at h
    have hlt : pxPos < pxLen := by omega
    obtain ⟨out2, e⟩ :=
      ih (pxPos + channelsOf hasAlpha) (writePx hasAlpha px pxPos out) (by omega)
    refine ⟨out2, ?_⟩
    have hpos : pxPos + (m + 1) * channelsOf hasAlpha =
        pxPos + channelsOf hasAlpha + m * channelsOf hasAlpha := by
      rw [hmul]; omega
    rw [hpos]
    simp only [runWrite]
    rw [if_neg (by omega)]
    exact e

theorem runWrite_err (hasAlpha : Bool) (px : Rgba) (pxLen : Nat) :
    ∀ (n pxPos : Nat) (out : List Nat),
      pxPos % channelsOf hasAlpha = 0 → pxLen % channelsOf hasAlpha = 0 →
      pxPos ≤ pxLen → pxLen < pxPos + n * channelsOf hasAlpha →
      runWrite hasAlpha px pxLen n pxPos out = .error .OutputIsTooSmall := by
  intro n
  induction n with
  | zero =>
    intro pxPos out hp hl hle hover
    simp only [Nat.zero_mul, Nat.add_zero] at hover
    omega
  | succ m ih =>
    intro pxPos out hp hl hle hover
    have hch : 0 < channelsOf hasAlpha := channelsOf_pos hasAlpha
    simp only [runWrite]
    by_cases hge : pxPos ≥ pxLen
    · rw [if_pos hge]
    · rw [if_neg hge]
      have hstep : pxPos + channelsOf hasAlpha ≤ pxLen :=
        step_le_of_mod _ _ _ hch hp hl (by omega)
      rw [Nat.succ_mul] at hover
      exact ih (pxPos + channelsOf hasAlpha) (writePx hasAlpha px pxPos out)
        ((Nat.add_mod_right _ _).trans hp) hl hstep (by omega)

/-- Claim C2: a run token (leading byte in 192..253) repeats the current
pixel (low 6 bits plus 1) times, writing each repetition at the cursor and
advancing it by the channel count, never touching the color cache (the
recursive call keeps the same cache `index`); when the run fits, the loop
continues at the advanced cursor; when the run exactly reaches
`decoded_size` the whole decode of that token succeeds; when the run would
write past `decoded_size` the decoder fails with `OutputIsTooSmall`. -/
theorem claim_c2 :
    ∀ (hasAlpha : Bool) (pxLen b1 b2 b3 b4 b5 : Nat) (tail : List Nat)
      (px : Rgba) (index : List Rgba) (pxPos : Nat) (output : List Nat),
      192 ≤ b1 → b1 ≤ 253 → pxPos < pxLen →
      QOI_PADDING < (b1 :: b2 :: b3 :: b4 :: b5 :: tail).length →
      pxPos % channelsOf hasAlpha = 0 → pxLen % channelsOf hasAlpha = 0 →
      ((pxPos + ((b1 &&& 63) + 1) * channelsOf hasAlpha ≤ pxLen →
        ∃ output2,
          runWrite hasAlpha px pxLen ((b1 &&& 63) + 1) pxPos output =
            .ok (pxPos + ((b1 &&& 63) + 1) * channelsOf hasAlpha, output2) ∧
          decodeLoop hasAlpha pxLen (b1 :: b2 :: b3 :: b4 :: b5 :: tail) px
              index pxPos output =
            decodeLoop hasAlpha pxLen (b2 :: b3 :: b4 :: b5 :: tail) px index
              (pxPos + ((b1 &&& 63) + 1) * channelsOf hasAlpha) output2) ∧
       (pxPos + ((b1 &&& 63) + 1) * channelsOf hasAlpha = pxLen →
        ∃ output2,
          decodeLoop hasAlpha pxLen (b1 :: b2 :: b3 :: b4 :: b5 :: tail) px
            index pxPos output = .ok output2) ∧
       (pxLen < pxPos + ((b1 &&& 63) + 1) * channelsOf hasAlpha →
        decodeLoop hasAlpha pxLen (b1 :: b2 :: b3 :: b4 :: b5 :: tail) px index
          pxPos output = .err .OutputIsTooSmall)) := by
  intro hasAlpha pxLen b1 b2 b3 b4 b5 tail px index pxPos output hb1 hb2 h1 h2
    hp hl
  simp only [List.length_cons] at h2
  have e1 : ¬ b1 = 254 := by omega
  have e2 : ¬ b1 = 255 := by omega
  have e3 : ¬ b1 ≤ 63 := by omega
  have e4 : ¬ b1 ≤ 127 := by omega
  have e5 : ¬ b1 ≤ 191 := by omega
  have e6 : b1 ≤ 255 := by omega
  have hc : classify b1 = Op.opRun := by
    simp [classify, e1, e2, e3, e4, e5, e6]
  have hunf : decodeLoop hasAlpha pxLen (b1 :: b2 :: b3 :: b4 :: b5 :: tail)
      px index pxPos output =
      (match runWrite hasAlpha px pxLen ((b1 &&& 63) + 1) pxPos output with
       | .ok (pxPos2, output2) =>
         decodeLoop hasAlpha pxLen (b2 :: b3 :: b4 :: b5 :: tail) px index
           pxPos2 output2
       | .error e => .err e) := by
    conv_lhs => rw [decodeLoop.eq_def]
    simp [h1, h2, hc]
  refine ⟨?_, ?_, ?_⟩
  · intro hle
    obtain ⟨out2, e⟩ := runWrite_ok hasAlpha px pxLen _ pxPos output hle
    refine ⟨out2, e, ?_⟩
    rw [hunf, e]
  · intro heq
    obtain ⟨out2, e⟩ :=
      runWrite_ok hasAlpha px pxLen _ pxPos output (le_of_eq heq)
    refine ⟨out2, ?_⟩
    rw [hunf, e]
    show decodeLoop hasAlpha pxLen (b2 :: b3 :: b4 :: b5 :: tail) px index
      (pxPos + ((b1 &&& 63) + 1) * channelsOf hasAlpha) out2 = .ok out2
    rw [heq, decodeLoop.eq_def]
    simp
  · intro hover
    rw [hunf, runWrite_err hasAlpha px pxLen _ pxPos output hp hl
      (le_of_lt h1) hover]

/-- Claim C2 witness: a run token 192 (run length 1) on a 1 by 1 RGB image
exactly reaches the decoded size. -/
theorem claim_c2_witness :
    ((0 + ((192 &&& 63) + 1) * channelsOf false ≤ 3 →
      ∃ output2,
        runWrite false Rgba.initial 3 ((192 &&& 63) + 1) 0 [7, 7, 7] =
          .ok (0 + ((192 &&& 63) + 1) * channelsOf false, output2) ∧
        decodeLoop false 3 (192 :: 0 :: 0 :: 0 :: 0 :: [0, 0, 0, 0])
            Rgba.initial (List.replicate 64 Rgba.new) 0 [7, 7, 7] =
          decodeLoop false 3 (0 :: 0 :: 0 :: 0 :: [0, 0, 0, 0]) Rgba.initial
            (List.replicate 64 Rgba.new)
            (0 + ((192 &&& 63) + 1) * channelsOf false) output2) ∧
     (0 + ((192 &&& 63) + 1) * channelsOf false = 3 →
      ∃ output2,
        decodeLoop false 3 (192 :: 0 :: 0 :: 0 :: 0 :: [0, 0, 0, 0])
          Rgba.initial (List.replicate 64 Rgba.new) 0 [7, 7, 7] =
            .ok output2) ∧
     (3 < 0 + ((192 &&& 63) + 1) * channelsOf false →
      decodeLoop false 3 (192 :: 0 :: 0 :: 0 :: 0 :: [0, 0, 0, 0]) Rgba.initial
        (List.replicate 64 Rgba.new) 0 [7, 7, 7] =
          .err .OutputIsTooSmall)) :=
  claim_c2 false 3 192 0 0 0 0 [0, 0, 0, 0] Rgba.initial
    (List.replicate 64 Rgba.new) 0 [7, 7, 7] (by decide) (by decide)
    (by decide) (by decide) (by decide) (by decide)

theorem setBytes_length : ∀ (vals out : List Nat) (pos : Nat),
    (setBytes out pos vals).length = out.length := by
  intro vals
  induction vals with
  | nil => intro out pos; rfl
  | cons v vs ih => intro out pos; simp [setBytes, ih, List.length_set]

theorem drop_set_of_lt {α : Type} : ∀ (l : List α) (i : Nat) (a : α) (n : Nat),
    i < n → (l.set i a).drop n = l.drop n := by
  intro l
  induction l with
  | nil => intro i a n h; simp
  | cons x xs ih =>
    intro i a n h
    cases i with
    | zero =>
      cases n with
      | zero => omega
      | succ m => simp
    | succ j =>
      cases n with
      | zero => omega
      | succ m => simpa using ih j a m (by omega)

theorem setBytes_drop : ∀ (vals out : List Nat) (pos n : Nat),
    pos + vals.length ≤ n → (setBytes out pos vals).drop n = out.drop n := by
  intro vals
  induction vals with
  | nil => intro out pos n h; rfl
  | cons v vs ih =>
    intro out pos n h
    simp only [List.length_cons] at h
    simp only [setBytes]
    rw [ih (out.set pos v) (pos + 1) n (by omega)]
    exact drop_set_of_lt out pos v n (by omega)

theorem writePx_length (hasAlpha : Bool) (px : Rgba) (pos : Nat)
    (out : List Nat) : (writePx hasAlpha px pos out).length = out.length := by
  cases hasAlpha <;>
    simp [writePx, Rgba.write_rgb, Rgba.write_rgba, setBytes_length]

theorem writePx_drop (hasAlpha : Bool) (px : Rgba) (pos n : Nat)
    (out : List Nat) (h : pos + channelsOf hasAlpha ≤ n) :
    (writePx hasAlpha px pos out).drop n = out.drop n := by
  cases hasAlpha
  · refine setBytes_drop _ _ _ _ ?_
    simp only [channelsOf] at h
    simpa using h
  · refine setBytes_drop _ _ _ _ ?_
    simp only [channelsOf] at h
    simpa using h

theorem runWrite_preserve (hasAlpha : Bool) (px : Rgba) (pxLen : Nat) :
    ∀ (n pxPos : Nat) (out : List Nat) (pxPos2 : Nat) (out2 : List Nat),
      pxPos % channelsOf hasAlpha = 0 → pxLen % channelsOf hasAlpha = 0 →
      pxPos ≤ pxLen → pxLen ≤ out.length →
      runWrite hasAlpha px pxLen n pxPos out = .ok (pxPos2, out2) →
      pxPos2 % channelsOf hasAlpha = 0 ∧ pxPos ≤ pxPos2 ∧ pxPos2 ≤ pxLen ∧
        out2.length = out.length ∧ out2.drop pxLen = out.drop pxLen := by
  intro n
  induction n with
  | zero =>
    intro pxPos out pxPos2 out2 hp hl hle hout e
    simp only [runWrite, Except.ok.injEq, Prod.mk.injEq] at e
    obtain ⟨e1, e2⟩ := e
    subst e1; subst e2
    exact ⟨hp, le_refl _, hle, rfl, rfl⟩
  | succ m ih =>
    intro pxPos out pxPos2 out2 hp hl hle hout e
    simp only [runWrite] at e
    by_cases hge : pxPos ≥ pxLen
    · rw [if_pos hge] at e; exact absurd e (by simp)
    · rw [if_neg hge] at e
      have hch : 0 < channelsOf hasAlpha := channelsOf_pos hasAlpha
      have hstep : pxPos + channelsOf hasAlpha ≤ pxLen :=
        step_le_of_mod _ _ _ hch hp hl (by omega)
      have hmod : (pxPos + channelsOf hasAlpha) % channelsOf hasAlpha = 0 :=
        (Nat.add_mod_right _ _).trans hp
      have hlen : pxLen ≤ (writePx hasAlpha px pxPos out).length := by
        rw [writePx_length]; exact hout
      obtain ⟨m1, m2, m3, m4, m5⟩ := ih (pxPos + channelsOf hasAlpha)
        (writePx hasAlpha px pxPos out) pxPos2 out2 hmod hl hstep hlen e
      refine ⟨m1, by omega, m3, ?_, ?_⟩
      · rw [m4, writePx_length]
      · rw [m5, writePx_drop hasAlpha px pxPos pxLen out hstep]

theorem decodeLoop_preserve (hasAlpha : Bool) (pxLen : Nat)
    (hl : pxLen % channelsOf hasAlpha = 0) :
    ∀ (rest : List Nat) (px : Rgba) (index : List Rgba) (pxPos : Nat)
      (output : List Nat), ∀ out2 : List Nat,
      pxPos % channelsOf hasAlpha = 0 → pxPos ≤ pxLen → pxLen ≤ output.length →
      decodeLoop hasAlpha pxLen rest px index pxPos output = .ok out2 →
      out2.length = output.length ∧ out2.drop pxLen = output.drop pxLen := by
  intro rest px index pxPos output
  induction rest, px, index, pxPos, output using decodeLoop.induct hasAlpha pxLen with
  | case1 px index pxPos output h1 b1 b2 b3 b4 b5 tail hc px2 hlen ih =>
    intro out2 hp hle hout e
    rw [decodeLoop.eq_def] at e
    rw [if_pos h1, if_pos hlen] at e
    dsimp only at e
    rw [hc] at e
    dsimp only at e
    have hch : 0 < channelsOf hasAlpha := channelsOf_pos hasAlpha
    have hstep : pxPos + channelsOf hasAlpha ≤ pxLen :=
      step_le_of_mod _ _ _ hch hp hl h1
    have hmod : (pxPos + channelsOf hasAlpha) % channelsOf hasAlpha = 0 :=
      (Nat.add_mod_right _ _).trans hp
    have hout2 : pxLen ≤ (writePx hasAlpha px2 pxPos output).length := by
      rw [writePx_length]; exact hout
    obtain ⟨r1, r2⟩ := ih out2 hmod hstep hout2 e
    constructor
    · rw [r1, writePx_length]
    · rw [r2, writePx_drop hasAlpha px2 pxPos pxLen output hstep]
  | case2 px index pxPos output h1 b1 b2 b3 b4 b5 tail hc px2 hlen ih =>
    intro out2 hp hle hout e
    rw [decodeLoop.eq_def] at e
    rw [if_pos h1, if_pos hlen] at e
    dsimp only at e
    rw [hc] at e
    dsimp only at e
    have hch : 0 < channelsOf hasAlpha := channelsOf_pos hasAlpha
    have hstep : pxPos + channelsOf hasAlpha ≤ pxLen :=
      step_le_of_mod _ _ _ hch hp hl h1
    have hmod : (pxPos + channelsOf hasAlpha) % channelsOf hasAlpha = 0 :=
      (Nat.add_mod_right _ _).trans hp
    have hout2 : pxLen ≤ (writePx hasAlpha px2 pxPos output).length := by
      rw [writePx_length]; exact hout
    obtain ⟨r1, r2⟩ := ih out2 hmod hstep hout2 e
    constructor
    · rw [r1, writePx_length]
    · rw [r2, writePx_drop hasAlpha px2 pxPos pxLen output hstep]
  | case3 px index pxPos output h1 b1 b2 b3 b4 b5 tail hc px2 hlen ih =>
    intro out2 hp hle hout e
    rw [decodeLoop.eq_def] at e
    rw [if_pos h1, if_pos hlen] at e
    dsimp only at e
    rw [hc] at e
    dsimp only at e
    have hch : 0 < channelsOf hasAlpha := channelsOf_pos hasAlpha
    have hstep : pxPos + channelsOf hasAlpha ≤ pxLen :=
      step_le_of_mod _ _ _ hch hp hl h1
    have hmod : (pxPos + channelsOf hasAlpha) % channelsOf hasAlpha = 0 :=
      (Nat.add_mod_right _ _).trans hp
    have hout2 : pxLen ≤ (writePx hasAlpha px2 pxPos output).length := by
      rw [writePx_length]; exact hout
    obtain ⟨r1, r2⟩ := ih out2 hmod hstep hout2 e
    constructor
    · rw [r1, writePx_length]
    · rw [r2, writePx_drop hasAlpha px2 pxPos pxLen output hstep]
  | case4 px index pxPos output h1 b1 b2 b3 b4 b5 tail hc px2 hlen ih =>
    intro out2 hp hle hout e
    rw [decodeLoop.eq_def] at e
    rw [if_pos h1, if_pos hlen] at e
    dsimp only at e
    rw [hc] at e
    dsimp only at e
    have hch : 0 < channelsOf hasAlpha := channelsOf_pos hasAlpha
    have hstep : pxPos + channelsOf hasAlpha ≤ pxLen :=
      step_le_of_mod _ _ _ hch hp hl h1
    have hmod : (pxPos + channelsOf hasAlpha) % channelsOf hasAlpha = 0 :=
      (Nat.add_mod_right _ _).trans hp
    have hout2 : pxLen ≤ (writePx hasAlpha px2 pxPos output).length := by
      rw [writePx_length]; exact hout
    obtain ⟨r1, r2⟩ := ih out2 hmod hstep hout2 e
    constructor
    · rw [r1, writePx_length]
    · rw [r2, writePx_drop hasAlpha px2 pxPos pxLen output hstep]
  | case5 px index pxPos output h1 b1 b2 b3 b4 b5 tail hc px2 hlen ih =>
    intro out2 hp hle hout e
    rw [decodeLoop.eq_def] at e
    rw [if_pos h1, if_pos hlen] at e
    dsimp only at e
    rw [hc] at e
    dsimp only at e
    have hch : 0 < channelsOf hasAlpha := channelsOf_pos hasAlpha
    have hstep : pxPos + channelsOf hasAlpha ≤ pxLen :=
      step_le_of_mod _ _ _ hch hp hl h1
    have hmod : (pxPos + channelsOf hasAlpha) % channelsOf hasAlpha = 0 :=
      (Nat.add_mod_right _ _).trans hp
    have hout2 : pxLen ≤ (writePx hasAlpha px2 pxPos output).length := by
      rw [writePx_length]; exact hout
    obtain ⟨r1, r2⟩ := ih out2 hmod hstep hout2 e
    constructor
    · rw [r1, writePx_length]
    · rw [r2, writePx_drop hasAlpha px2 pxPos pxLen output hstep]
  | case6 px index pxPos output h1 b1 b2 b3 b4 b5 tail hc pxPos2 output2 hrw hlen ih =>
    intro out2 hp hle hout e
    rw [decodeLoop.eq_def] at e
    rw [if_pos h1, if_pos hlen] at e
    dsimp only at e
    rw [hc] at e
    dsimp only at e
    rw [hrw] at e
    dsimp only at e
    obtain ⟨m1, m2, m3, m4, m5⟩ := runWrite_preserve hasAlpha px pxLen _ pxPos
      output pxPos2 output2 hp hl hle hout hrw
    obtain ⟨r1, r2⟩ := ih out2 m1 m3 (by rw [m4]; exact hout) e
    exact ⟨r1.trans m4, r2.trans m5⟩
  | case7 px index pxPos output h1 b1 b2 b3 b4 b5 tail hc e2 hrw hlen =>
    intro out2 hp hle hout e
    rw [decodeLoop.eq_def] at e
    rw [if_pos h1, if_pos hlen] at e
    dsimp only at e
    rw [hc] at e
    dsimp only at e
    rw [hrw] at e
    exact absurd e (by simp)
  | case8 px index pxPos output h1 b1 b2 b3 b4 b5 tail hc hlen =>
    intro out2 hp hle hout e
    rw [decodeLoop.eq_def] at e
    rw [if_pos h1, if_pos hlen] at e
    dsimp only at e
    rw [hc] at e
    exact absurd e (by simp)
  | case9 rest px index pxPos output h1 hlen hnm =>
    intro out2 hp hle hout e
    exfalso
    rcases rest with _ | ⟨a1, _ | ⟨a2, _ | ⟨a3, _ | ⟨a4, _ | ⟨a5, t⟩⟩⟩⟩⟩
    · simp [QOI_PADDING] at hlen
    · simp [QOI_PADDING] at hlen
    · simp [QOI_PADDING] at hlen
    · simp [QOI_PADDING] at hlen
    · simp [QOI_PADDING] at hlen
    · exact hnm a1 a2 a3 a4 a5 t rfl
  | case10 rest px index pxPos output h1 hlen =>
    intro out2 hp hle hout e
    rw [decodeLoop.eq_def] at e
    rw [if_pos h1, if_neg hlen] at e
    exact absurd e (by simp)
  | case11 rest px index pxPos output h1 =>
    intro out2 hp hle hout e
    rw [decodeLoop.eq_def] at e
    rw [if_neg h1] at e
    obtain rfl : output = out2 := by simpa using e
    exact ⟨rfl, rfl⟩

